import Mathlib

/-!
Verification of the mortgage-package section classifier
(`analyze_mortgage_sections` in `app.py`).

The classifier receives a list of text fragments (one extracted line of
text together with its 1-based page number and extraction method), matches
each fragment against a static catalog of section rules by substring
containment of uppercase keyword patterns, keeps at most one best record
per section label in an insertion-ordered map, and finally sorts the
records by priority (descending), page (ascending) and label (ascending).

The embedding below mirrors the Python source line by line:
* `upper` models `str.upper` (character-wise uppercasing),
* `strContains` models the substring test `pattern in text`,
* `wordCount` models `len(text.split())`,
* `pyStrip` models `text.strip()`,
* `take100` models the slice `text[:100]`,
* `section_rules` is the static rule catalog,
* `computeConfidence` is the confidence-tier computation,
* `applyRule` is the body of the per-rule loop (first matching pattern
  wins, insert-or-conditionally-replace into the result map),
* the result map `found_sections` is modelled as an insertion-ordered
  association list `List Section` keyed by `section_type`,
* `analyze_mortgage_sections` folds over the fragments and sorts the
  resulting records with the key `(-priority, page, section_type)`.
-/

namespace MortgageAnalyzer

/-- Character-wise uppercasing, modelling Python's `str.upper` on the
ASCII letters that occur in the rule patterns. -/
def upper (s : String) : String := ⟨s.data.map Char.toUpper⟩

/-- `leadsWith p l` is true when `p` is an initial segment of `l`. -/
def leadsWith : List Char → List Char → Bool
  | [], _ => true
  | _ :: _, [] => false
  | p :: ps, c :: cs => p == c && leadsWith ps cs

/-- `occursIn p l` is true when `p` occurs contiguously inside `l`. -/
def occursIn (p : List Char) : List Char → Bool
  | [] => leadsWith p []
  | c :: cs => leadsWith p (c :: cs) || occursIn p cs

/-- Python's substring test `pat in text`. -/
def strContains (text pat : String) : Bool := occursIn pat.data text.data

/-- Word counter for `len(text.split())`: the Boolean argument records
whether the scan is currently inside a word. -/
def countWords : List Char → Bool → Nat
  | [], _ => 0
  | c :: cs, inWord =>
    if c.isWhitespace then countWords cs false
    else (if inWord then 0 else 1) + countWords cs true

/-- Python's `len(text.split())`: the number of maximal whitespace-free
runs of characters. -/
def wordCount (s : String) : Nat := countWords s.data false

/-- Python's `text.strip()`: remove leading and trailing whitespace. -/
def pyStrip (s : String) : String :=
  ⟨((s.data.dropWhile Char.isWhitespace).reverse.dropWhile Char.isWhitespace).reverse⟩

/-- Python's slice `text[:100]` (first 100 characters). -/
def take100 (s : String) : String := ⟨s.data.take 100⟩

/-- One extracted line of text: `{"text": ..., "page": ..., "method": ...}`. -/
structure Fragment where
  text : String
  page : Nat
  method : String
deriving DecidableEq

/-- One entry of the static rule catalog `section_rules`. -/
structure Rule where
  patterns : List String
  label : String
  priority : Nat
deriving DecidableEq

/-- One output record of the classifier. -/
structure Section where
  section_type : String
  page : Nat
  confidence : String
  text_snippet : String
  priority : Nat
  pattern_matched : String
deriving DecidableEq

/-- The static rule catalog, transcribed from `section_rules` in
`analyze_mortgage_sections`. -/
def section_rules : List Rule := [
  ⟨["MORTGAGE", "DEED OF TRUST", "SECURITY INSTRUMENT"], "Mortgage", 10⟩,
  ⟨["PROMISSORY NOTE", "NOTE"], "Promissory Note", 10⟩,
  ⟨["LENDERS CLOSING INSTRUCTIONS", "CLOSING INSTRUCTIONS GUARANTY", "LENDER\x27S CLOSING INSTRUCTIONS"],
    "Lenders Closing Instructions Guaranty", 9⟩,
  ⟨["SETTLEMENT STATEMENT", "HUD-1", "CLOSING DISCLOSURE"], "Settlement Statement", 9⟩,
  ⟨["STATEMENT OF ANTI COERCION", "ANTI COERCION", "ANTI-COERCION FLORIDA"],
    "Statement of Anti Coercion Florida", 8⟩,
  ⟨["CORRECTION AGREEMENT", "LIMITED POWER OF ATTORNEY", "POWER OF ATTORNEY"],
    "Correction Agreement and Limited Power of Attorney", 8⟩,
  ⟨["ALL PURPOSE ACKNOWLEDGMENT", "ACKNOWLEDGMENT", "NOTARY ACKNOWLEDGMENT"],
    "All Purpose Acknowledgment", 8⟩,
  ⟨["FLOOD HAZARD DETERMINATION", "FLOOD DETERMINATION", "FEMA FLOOD"],
    "Flood Hazard Determination", 7⟩,
  ⟨["INSURANCE POLICY", "HOMEOWNER\x27S INSURANCE", "HAZARD INSURANCE"], "Insurance Policy", 7⟩,
  ⟨["AUTOMATIC PAYMENTS AUTHORIZATION", "AUTOMATIC PAYMENT", "ACH AUTHORIZATION"],
    "Automatic Payments Authorization", 7⟩,
  ⟨["TAX RECORD INFORMATION", "TAX RECORDS", "PROPERTY TAX"], "Tax Record Information", 7⟩,
  ⟨["TITLE POLICY", "TITLE INSURANCE", "OWNER\x27S POLICY"], "Title Policy", 6⟩,
  ⟨["DEED", "WARRANTY DEED", "QUITCLAIM DEED"], "Deed", 6⟩,
  ⟨["UCC FILING", "UCC-1", "FINANCING STATEMENT"], "UCC Filing", 5⟩,
  ⟨["SIGNATURE PAGE", "SIGNATURES", "BORROWER SIGNATURE"], "Signature Page", 5⟩,
  ⟨["AFFIDAVIT", "SWORN STATEMENT"], "Affidavit", 5⟩]

/-- The ranking dictionary `confidence_rank = {"high": 3, "medium": 2, "low": 1}`
with `.get(c, 0)` defaulting to `0`. -/
def confidence_rank (c : String) : Nat :=
  if c = "high" then 3 else if c = "medium" then 2 else if c = "low" then 1 else 0

/-- The confidence computation of the matcher, applied to the uppercased
fragment text, the matched pattern, and all patterns of the rule. -/
def computeConfidence (text pattern : String) (patterns : List String) : String :=
  if pyStrip text = pattern then "high"
  else if strContains text pattern && decide (wordCount text ≤ 10) then "high"
  else if decide (1 < (patterns.filter (fun p => strContains text p)).length) then "high"
  else "medium"

/-- Lookup in the result map `found_sections`, keyed by `section_type`. -/
def lookupSec (fs : List Section) (lab : String) : Option Section :=
  fs.find? (fun e => e.section_type == lab)

/-- The inner pattern loop: the first pattern of the rule contained in the
uppercased text (the loop `break`s after handling the first hit). -/
def firstMatch (text : String) (patterns : List String) : Option String :=
  patterns.find? (fun p => strContains text p)

/-- The record inserted when the label has no entry yet. -/
def newSection (rule : Rule) (item : Fragment) (confidence pattern : String) : Section :=
  { section_type := rule.label, page := item.page, confidence := confidence,
    text_snippet := take100 item.text, priority := rule.priority,
    pattern_matched := pattern }

/-- The in-place update applied when a better match replaces an existing
entry: `page`, `confidence`, `text_snippet` and `pattern_matched` are
overwritten; `section_type` and `priority` are kept. -/
def updateSection (item : Fragment) (confidence pattern : String) (e : Section) : Section :=
  { e with page := item.page, confidence := confidence,
           text_snippet := take100 item.text, pattern_matched := pattern }

/-- The replacement test of the upsert: the new confidence tier strictly
outranks the existing one, or the tiers are equal and the rule's priority
is at least the existing entry's priority. -/
def betterMatch (confidence : String) (priority : Nat) (existing : Section) : Bool :=
  decide (confidence_rank existing.confidence < confidence_rank confidence) ||
  (confidence == existing.confidence && decide (existing.priority ≤ priority))

/-- The body of the per-rule loop for one fragment: find the first
matching pattern, compute the confidence, and insert or conditionally
replace the entry for the rule's label. -/
def applyRule (item : Fragment) (fs : List Section) (rule : Rule) : List Section :=
  match firstMatch (upper item.text) rule.patterns with
  | none => fs
  | some pattern =>
    let confidence := computeConfidence (upper item.text) pattern rule.patterns
    match lookupSec fs rule.label with
    | none => fs ++ [newSection rule item confidence pattern]
    | some existing =>
      if betterMatch confidence rule.priority existing then
        fs.map (fun e => if e.section_type == rule.label then
          updateSection item confidence pattern e else e)
      else fs

/-- Processing of one fragment: the loop over the rule catalog. -/
def processItem (rules : List Rule) (fs : List Section) (item : Fragment) : List Section :=
  rules.foldl (applyRule item) fs

/-- The result map `found_sections` after all fragments are processed,
as an insertion-ordered association list. -/
def foundSections (rules : List Rule) (l : List Fragment) : List Section :=
  l.foldl (processItem rules) []

/-- The sort key comparison `(-priority, page, section_type)` of the final
`sorted(...)` call, as a total preorder on records. -/
def sectionLE (a b : Section) : Prop :=
  b.priority < a.priority ∨ (a.priority = b.priority ∧
    (a.page < b.page ∨ (a.page = b.page ∧ a.section_type ≤ b.section_type)))

instance : DecidableRel sectionLE := fun a b => by
  unfold sectionLE; infer_instance

/-- The classifier parametrised by the rule catalog. -/
def analyzeWith (rules : List Rule) (l : List Fragment) : List Section :=
  List.insertionSort sectionLE (foundSections rules l)

/-- `analyze_mortgage_sections`: the classifier with the static catalog. -/
def analyze_mortgage_sections (l : List Fragment) : List Section :=
  analyzeWith section_rules l

/-! ### Per-label semantics of the upsert loop -/

/-- The effect of one rule on the entry stored for that rule's label:
no matching pattern leaves it alone; otherwise a missing entry is
inserted and an existing entry is replaced when `betterMatch` holds. -/
def ruleStep (item : Fragment) (rule : Rule) (cur : Option Section) : Option Section :=
  match firstMatch (upper item.text) rule.patterns with
  | none => cur
  | some pattern =>
    let confidence := computeConfidence (upper item.text) pattern rule.patterns
    match cur with
    | none => some (newSection rule item confidence pattern)
    | some existing =>
      if betterMatch confidence rule.priority existing then
        some (updateSection item confidence pattern existing)
      else some existing

theorem section_type_updateSection (item : Fragment) (c p : String) (e : Section) :
    (updateSection item c p e).section_type = e.section_type := rfl

theorem lookupSec_append (fs : List Section) (s : Section) (lab : String) :
    lookupSec (fs ++ [s]) lab =
      (lookupSec fs lab).or (if s.section_type = lab then some s else none) := by
  unfold lookupSec
  rw [List.find?_append]
  by_cases h : s.section_type = lab
  · rw [if_pos h, List.find?_cons_of_pos _ (by simp [h])]
  · rw [if_neg h, List.find?_cons_of_neg _ (by simp [h])]
    rfl

theorem lookupSec_map (fs : List Section) (g : Section → Section)
    (hg : ∀ e, (g e).section_type = e.section_type) (lab : String) :
    lookupSec (fs.map g) lab = (lookupSec fs lab).map g := by
  unfold lookupSec
  rw [List.find?_map]
  have : ((fun e : Section => e.section_type == lab) ∘ g) =
      (fun e : Section => e.section_type == lab) := by
    funext e
    simp [Function.comp, hg e]
  rw [this]

theorem lookupSec_section_type {fs : List Section} {lab : String} {e : Section}
    (h : lookupSec fs lab = some e) : e.section_type = lab := by
  have := List.find?_some h
  exact beq_iff_eq.mp this

theorem lookupSec_mem {fs : List Section} {lab : String} {e : Section}
    (h : lookupSec fs lab = some e) : e ∈ fs :=
  List.mem_of_find?_eq_some h

theorem lookupSec_applyRule (item : Fragment) (fs : List Section) (rule : Rule) (lab : String) :
    lookupSec (applyRule item fs rule) lab =
      if lab = rule.label then ruleStep item rule (lookupSec fs rule.label)
      else lookupSec fs lab := by
  unfold applyRule ruleStep
  cases hm : firstMatch (upper item.text) rule.patterns with
  | none => by_cases h : lab = rule.label <;> simp [h]
  | some pattern =>
    cases hl : lookupSec fs rule.label with
    | none =>
      rw [lookupSec_append]
      by_cases h : lab = rule.label
      · subst h
        rw [hl]
        have hnew : (newSection rule item
            (computeConfidence (upper item.text) pattern rule.patterns) pattern).section_type
            = rule.label := rfl
        simp [hnew]
      · have hnew : (newSection rule item
            (computeConfidence (upper item.text) pattern rule.patterns) pattern).section_type
            = rule.label := rfl
        rw [hnew, if_neg (fun hc => h hc.symm), Option.or_none, if_neg h]
    | some existing =>
      by_cases hb : betterMatch (computeConfidence (upper item.text) pattern rule.patterns)
          rule.priority existing
      · simp only [hl, hb, if_true]
        have hg : ∀ e : Section, ((fun e : Section => if e.section_type == rule.label then
            updateSection item (computeConfidence (upper item.text) pattern rule.patterns)
              pattern e else e) e).section_type = e.section_type := by
          intro e
          by_cases he : e.section_type = rule.label <;> simp [he, updateSection]
        rw [lookupSec_map _ _ hg]
        by_cases h : lab = rule.label
        · subst h
          rw [hl]
          have hex : existing.section_type = rule.label := lookupSec_section_type hl
          simp [hex]
        · rw [if_neg h]
          cases hf : lookupSec fs lab with
          | none => rfl
          | some e =>
            have he : e.section_type = lab := lookupSec_section_type hf
            have he2 : ¬(e.section_type = rule.label) := by
              rw [he]; exact fun hc => h hc
            simp [he2]
      · simp only [hl, hb, if_false]
        by_cases h : lab = rule.label
        · subst h; simp [hl]
        · simp [h]

theorem lookupSec_processItem (item : Fragment) (rules : List Rule) (fs : List Section)
    (lab : String) :
    lookupSec (processItem rules fs item) lab =
      (rules.filter (fun r => r.label == lab)).foldl
        (fun cur r => ruleStep item r cur) (lookupSec fs lab) := by
  induction rules generalizing fs with
  | nil => rfl
  | cons r rs ih =>
    show lookupSec (processItem rs (applyRule item fs r) item) lab = _
    rw [ih]
    by_cases h : r.label = lab
    · subst h
      simp [List.filter, lookupSec_applyRule]
    · have hb : (r.label == lab) = false := by simp [h]
      simp only [List.filter, hb]
      rw [lookupSec_applyRule]
      rw [if_neg (fun hc => h hc.symm)]

/-! ### Generic helpers for key-indexed association lists -/

theorem foldl_invariant {α : Type u} {β : Type v} (P : β → Prop) (f : β → α → β) :
    ∀ (L : List α) (s : β), P s → (∀ x ∈ L, ∀ t, P t → P (f t x)) → P (L.foldl f s) := by
  intro L
  induction L with
  | nil => intro s hs _; exact hs
  | cons x L ih =>
    intro s hs h
    exact ih (f s x) (h x (by simp) s hs) (fun y hy t ht => h y (by simp [hy]) t ht)

theorem key_inj_of_nodup {α : Type u} {β : Type v} (key : α → β) :
    ∀ (l : List α), (l.map key).Nodup → ∀ a ∈ l, ∀ b ∈ l, key a = key b → a = b := by
  intro l
  induction l with
  | nil => intro _ a ha; exact absurd ha (List.not_mem_nil a)
  | cons x t ih =>
    intro hnd a ha b hb hab
    simp only [List.map_cons, List.nodup_cons] at hnd
    rcases List.mem_cons.mp ha with ha1 | ha2
    · rcases List.mem_cons.mp hb with hb1 | hb2
      · rw [ha1, hb1]
      · exfalso
        apply hnd.1
        rw [ha1] at hab
        exact hab ▸ List.mem_map_of_mem key hb2
    · rcases List.mem_cons.mp hb with hb1 | hb2
      · exfalso
        apply hnd.1
        rw [hb1] at hab
        exact hab.symm ▸ List.mem_map_of_mem key ha2
      · exact ih hnd.2 a ha2 b hb2 hab

theorem find?_key_eq_some {α : Type u} {β : Type v} [DecidableEq β] (key : α → β) :
    ∀ (l : List α), (l.map key).Nodup → ∀ a ∈ l,
      l.find? (fun x => key x == key a) = some a := by
  intro l
  induction l with
  | nil => intro _ a ha; exact absurd ha (List.not_mem_nil a)
  | cons y t ih =>
    intro hnd a ha
    simp only [List.map_cons, List.nodup_cons] at hnd
    rcases List.mem_cons.mp ha with ha1 | ha2
    · subst ha1
      rw [List.find?_cons, show (key a == key a) = true from by simp]
    · have hne : (key y == key a) = false := by
        simp only [beq_eq_false_iff_ne, ne_eq]
        intro hc
        exact hnd.1 (hc ▸ List.mem_map_of_mem key ha2)
      rw [List.find?_cons, hne]
      exact ih hnd.2 a ha2

theorem mem_iff_lookup {α : Type u} {β : Type v} [DecidableEq β] (key : α → β)
    (l : List α) (hnd : (l.map key).Nodup) (a : α) :
    a ∈ l ↔ l.find? (fun x => key x == key a) = some a := by
  constructor
  · exact find?_key_eq_some key l hnd a
  · intro h; exact List.mem_of_find?_eq_some h

theorem perm_of_lookup_eq {α : Type u} {β : Type v} [DecidableEq β] (key : α → β)
    (l₁ l₂ : List α) (h₁ : (l₁.map key).Nodup) (h₂ : (l₂.map key).Nodup)
    (h : ∀ k, l₁.find? (fun x => key x == k) = l₂.find? (fun x => key x == k)) :
    l₁.Perm l₂ := by
  have hn₁ : l₁.Nodup := List.Nodup.of_map key h₁
  have hn₂ : l₂.Nodup := List.Nodup.of_map key h₂
  rw [List.perm_ext_iff_of_nodup hn₁ hn₂]
  intro a
  rw [mem_iff_lookup key l₁ h₁ a, mem_iff_lookup key l₂ h₂ a, h (key a)]

/-! ### Invariants of the result map -/

/-- At most one entry per label: the `section_type` keys are distinct. -/
def keysNodup (fs : List Section) : Prop := (fs.map Section.section_type).Nodup

theorem keysNodup_applyRule (item : Fragment) (fs : List Section) (rule : Rule)
    (h : keysNodup fs) : keysNodup (applyRule item fs rule) := by
  unfold applyRule
  cases hm : firstMatch (upper item.text) rule.patterns with
  | none => exact h
  | some pattern =>
    cases hl : lookupSec fs rule.label with
    | none =>
      unfold keysNodup at h ⊢
      have hnm : rule.label ∉ fs.map Section.section_type := by
        intro hmem
        rcases List.mem_map.mp hmem with ⟨e, he, hkey⟩
        have := List.find?_eq_none.mp hl e he
        simp [hkey] at this
      simp [List.nodup_append, h, newSection]
      intro e he hc
      exact hnm (hc ▸ List.mem_map_of_mem Section.section_type he)
    | some existing =>
      by_cases hb : betterMatch (computeConfidence (upper item.text) pattern rule.patterns)
          rule.priority existing
      · simp only [hb, if_true]
        unfold keysNodup at h ⊢
        rw [List.map_map]
        have : (Section.section_type ∘ (fun e : Section =>
            if e.section_type == rule.label then
              updateSection item (computeConfidence (upper item.text) pattern rule.patterns)
                pattern e else e)) = Section.section_type := by
          funext e
          by_cases he : e.section_type = rule.label <;> simp [Function.comp, he, updateSection]
        rw [this]
        exact h
      · simp only [hb, if_false]
        exact h

theorem keysNodup_processItem (rules : List Rule) (fs : List Section) (item : Fragment)
    (h : keysNodup fs) : keysNodup (processItem rules fs item) :=
  foldl_invariant keysNodup (applyRule item) rules fs h
    (fun rule _ t ht => keysNodup_applyRule item t rule ht)

theorem keysNodup_foundSections (rules : List Rule) (l : List Fragment) :
    keysNodup (foundSections rules l) :=
  foldl_invariant keysNodup (processItem rules) l [] (by simp [keysNodup])
    (fun item _ t ht => keysNodup_processItem rules t item ht)

theorem computeConfidence_cases (text pattern : String) (patterns : List String) :
    computeConfidence text pattern patterns = "high" ∨
    computeConfidence text pattern patterns = "medium" := by
  unfold computeConfidence
  split
  · exact Or.inl rfl
  · split
    · exact Or.inl rfl
    · split
      · exact Or.inl rfl
      · exact Or.inr rfl

/-- Every stored entry has a confidence actually produced by the matcher
and carries the label and priority of a catalog rule. -/
def GoodEntries (rules : List Rule) (fs : List Section) : Prop :=
  ∀ e ∈ fs, (e.confidence = "high" ∨ e.confidence = "medium") ∧
    ∃ r ∈ rules, r.label = e.section_type ∧ r.priority = e.priority

theorem goodEntries_applyRule (item : Fragment) (fs : List Section) (rules : List Rule)
    (rule : Rule) (hrule : rule ∈ rules) (h : GoodEntries rules fs) :
    GoodEntries rules (applyRule item fs rule) := by
  unfold applyRule
  cases hm : firstMatch (upper item.text) rule.patterns with
  | none => exact h
  | some pattern =>
    cases hl : lookupSec fs rule.label with
    | none =>
      intro e he
      rcases List.mem_append.mp he with he1 | he2
      · exact h e he1
      · have : e = newSection rule item
            (computeConfidence (upper item.text) pattern rule.patterns) pattern := by
          simpa using he2
        subst this
        refine ⟨computeConfidence_cases _ _ _, rule, hrule, rfl, rfl⟩
    | some existing =>
      by_cases hb : betterMatch (computeConfidence (upper item.text) pattern rule.patterns)
          rule.priority existing
      · simp only [hb, if_true]
        intro e he
        rcases List.mem_map.mp he with ⟨x, hx, hxe⟩
        by_cases hxl : x.section_type = rule.label
        · rw [← hxe]
          simp only [hxl, beq_self_eq_true, if_true]
          rcases h x hx with ⟨_, r, hr, hlab, hpr⟩
          exact ⟨Or.imp id id (computeConfidence_cases _ _ _), r, hr, hlab, hpr⟩
        · rw [← hxe]
          simp only [beq_iff_eq, hxl, if_false]
          exact h x hx
      · simp only [hb, if_false]
        exact h

theorem goodEntries_processItem (rules : List Rule) (fs : List Section) (item : Fragment)
    (h : GoodEntries rules fs) : GoodEntries rules (processItem rules fs item) :=
  foldl_invariant (GoodEntries rules) (applyRule item) rules fs h
    (fun rule hrule t ht => goodEntries_applyRule item t rules rule hrule ht)

theorem goodEntries_foundSections (rules : List Rule) (l : List Fragment) :
    GoodEntries rules (foundSections rules l) :=
  foldl_invariant (GoodEntries rules) (processItem rules) l []
    (fun e he => absurd he (List.not_mem_nil e))
    (fun item _ t ht => goodEntries_processItem rules t item ht)

/-- The label column of the static catalog is duplicate-free. -/
theorem section_rules_labels_nodup : (section_rules.map Rule.label).Nodup := by decide

/-! ### The final sort -/

instance : IsTotal Section sectionLE := ⟨by
  intro a b
  unfold sectionLE
  rcases Nat.lt_trichotomy a.priority b.priority with h | h | h
  · exact Or.inr (Or.inl h)
  · rcases Nat.lt_trichotomy a.page b.page with h2 | h2 | h2
    · exact Or.inl (Or.inr ⟨h, Or.inl h2⟩)
    · rcases le_total a.section_type b.section_type with h3 | h3
      · exact Or.inl (Or.inr ⟨h, Or.inr ⟨h2, h3⟩⟩)
      · exact Or.inr (Or.inr ⟨h.symm, Or.inr ⟨h2.symm, h3⟩⟩)
    · exact Or.inr (Or.inr ⟨h.symm, Or.inl h2⟩)
  · exact Or.inl (Or.inl h)⟩

instance : IsTrans Section sectionLE := ⟨by
  intro a b c hab hbc
  unfold sectionLE at hab hbc ⊢
  rcases hab with h1 | ⟨h1, h2⟩
  · rcases hbc with h3 | ⟨h3, h4⟩
    · exact Or.inl (by omega)
    · exact Or.inl (by omega)
  · rcases hbc with h3 | ⟨h3, h4⟩
    · exact Or.inl (by omega)
    · refine Or.inr ⟨by omega, ?_⟩
      rcases h2 with h2 | ⟨h2, h5⟩
      · rcases h4 with h4 | ⟨h4, h6⟩
        · exact Or.inl (by omega)
        · exact Or.inl (by omega)
      · rcases h4 with h4 | ⟨h4, h6⟩
        · exact Or.inl (by omega)
        · exact Or.inr ⟨by omega, le_trans h5 h6⟩⟩

theorem sectionLE_antisymm_fields {a b : Section} (h1 : sectionLE a b) (h2 : sectionLE b a) :
    a.priority = b.priority ∧ a.page = b.page ∧ a.section_type = b.section_type := by
  unfold sectionLE at h1 h2
  rcases h1 with h1 | ⟨h1, h3⟩
  · rcases h2 with h2 | ⟨h2, h4⟩
    · omega
    · omega
  · rcases h2 with h2 | ⟨h2, h4⟩
    · omega
    · refine ⟨h1, ?_⟩
      rcases h3 with h3 | ⟨h3, h5⟩
      · rcases h4 with h4 | ⟨h4, h6⟩
        · omega
        · omega
      · rcases h4 with h4 | ⟨h4, h6⟩
        · omega
        · exact ⟨h3, le_antisymm h5 h6⟩

/-- Two sorted lists that are permutations of each other and whose sort
keys are pairwise antisymmetric on the first list (here: have
duplicate-free keys) are equal. -/
theorem eq_of_perm_of_sorted_key {α : Type u} {β : Type v} {r : α → α → Prop} (key : α → β)
    (hkey : ∀ a b, r a b → r b a → key a = key b) :
    ∀ (l₁ l₂ : List α), l₁.Perm l₂ → l₁.Sorted r → l₂.Sorted r →
      (l₁.map key).Nodup → l₁ = l₂ := by
  intro l₁
  induction l₁ with
  | nil =>
    intro l₂ hp _ _ _
    exact hp.nil_eq
  | cons a t₁ ih =>
    intro l₂ hp hs₁ hs₂ hnd
    cases l₂ with
    | nil => exact absurd hp.symm.nil_eq (by simp)
    | cons b t₂ =>
      have hab : a = b := by
        by_contra hne
        have ha2 : a ∈ b :: t₂ := hp.subset (List.mem_cons_self a t₁)
        have hb1 : b ∈ a :: t₁ := hp.symm.subset (List.mem_cons_self b t₂)
        have hat2 : a ∈ t₂ := by
          rcases List.mem_cons.mp ha2 with h | h
          · exact absurd h hne
          · exact h
        have hbt1 : b ∈ t₁ := by
          rcases List.mem_cons.mp hb1 with h | h
          · exact absurd h.symm hne
          · exact h
        have hr1 : r a b := List.rel_of_sorted_cons hs₁ b hbt1
        have hr2 : r b a := List.rel_of_sorted_cons hs₂ a hat2
        have hk : key a = key b := hkey a b hr1 hr2
        simp only [List.map_cons, List.nodup_cons] at hnd
        exact hnd.1 (hk ▸ List.mem_map_of_mem key hbt1)
      subst hab
      have hpt : t₁.Perm t₂ := hp.cons_inv
      have := ih t₂ hpt (List.Sorted.of_cons hs₁) (List.Sorted.of_cons hs₂)
        (by simp only [List.map_cons, List.nodup_cons] at hnd; exact hnd.2)
      rw [this]

/-- Sorting with the classifier's key is canonical on result maps with
duplicate-free labels: permuted inputs sort to the same list. -/
theorem insertionSort_congr_of_perm {f₁ f₂ : List Section}
    (h₁ : keysNodup f₁) (hp : f₁.Perm f₂) :
    List.insertionSort sectionLE f₁ = List.insertionSort sectionLE f₂ := by
  have hs₁ : (List.insertionSort sectionLE f₁).Sorted sectionLE :=
    List.sorted_insertionSort sectionLE f₁
  have hs₂ : (List.insertionSort sectionLE f₂).Sorted sectionLE :=
    List.sorted_insertionSort sectionLE f₂
  have hperm : (List.insertionSort sectionLE f₁).Perm (List.insertionSort sectionLE f₂) :=
    (List.perm_insertionSort sectionLE f₁).trans
      (hp.trans (List.perm_insertionSort sectionLE f₂).symm)
  have hnd : ((List.insertionSort sectionLE f₁).map Section.section_type).Nodup :=
    ((List.perm_insertionSort sectionLE f₁).map Section.section_type).nodup_iff.mpr h₁
  exact eq_of_perm_of_sorted_key Section.section_type
    (fun a b hab hba => (sectionLE_antisymm_fields hab hba).2.2) _ _ hperm hs₁ hs₂ hnd

/-! ### Claims -/

/-- C1: for every input fragment sequence, the output of
`analyze_mortgage_sections` contains at most one record per distinct
label: no two output records have the same `section_type`. -/
theorem C1_output_labels_unique (l : List Fragment) :
    ((analyze_mortgage_sections l).map Section.section_type).Nodup := by
  have h := keysNodup_foundSections section_rules l
  exact ((List.perm_insertionSort sectionLE
    (foundSections section_rules l)).map Section.section_type).nodup_iff.mpr h

/-- C4: in the returned sequence, every adjacent pair of records satisfies:
the first has strictly higher priority, or equal priority and page at most
the second's page, or equal priority and page and a `section_type` that is
lexicographically at most the second's. -/
theorem C4_output_ordering (l : List Fragment) :
    List.Chain' (fun a b : Section =>
      b.priority < a.priority ∨ (a.priority = b.priority ∧ a.page ≤ b.page) ∨
      (a.priority = b.priority ∧ a.page = b.page ∧ a.section_type ≤ b.section_type))
      (analyze_mortgage_sections l) := by
  have hs : (analyze_mortgage_sections l).Sorted sectionLE :=
    List.sorted_insertionSort sectionLE (foundSections section_rules l)
  refine List.Chain'.imp ?_ (List.Pairwise.chain' hs)
  intro a b hab
  unfold sectionLE at hab
  rcases hab with h | ⟨h, h2 | ⟨h2, h3⟩⟩
  · exact Or.inl h
  · exact Or.inr (Or.inl ⟨h, Nat.le_of_lt h2⟩)
  · exact Or.inr (Or.inr ⟨h, h2, h3⟩)

/-- C5: every output record's `priority` equals the priority the static
catalog assigns to the rule whose `label` is the record's `section_type`;
upserts never change a stored priority away from the catalog's value. -/
theorem C5_priority_matches_catalog (l : List Fragment) (e : Section)
    (he : e ∈ analyze_mortgage_sections l) :
    ∃ r ∈ section_rules, r.label = e.section_type ∧ e.priority = r.priority := by
  have hmem : e ∈ foundSections section_rules l :=
    (List.perm_insertionSort sectionLE (foundSections section_rules l)).subset he
  rcases goodEntries_foundSections section_rules l e hmem with ⟨_, r, hr, hlab, hpr⟩
  exact ⟨r, hr, hlab, hpr.symm⟩

/-- C5 witness: the catalog rule behind the single record produced for the
Scenario 1 input. -/
theorem C5_priority_matches_catalog_witness :
    (⟨"Promissory Note", 3, "high", "PROMISSORY NOTE", 10, "PROMISSORY NOTE"⟩ : Section) ∈
      analyze_mortgage_sections [⟨"PROMISSORY NOTE", 3, "primary"⟩] ∧
    ∃ r ∈ section_rules,
      r.label = (⟨"Promissory Note", 3, "high", "PROMISSORY NOTE", 10,
        "PROMISSORY NOTE"⟩ : Section).section_type ∧
      (⟨"Promissory Note", 3, "high", "PROMISSORY NOTE", 10,
        "PROMISSORY NOTE"⟩ : Section).priority = r.priority :=
  ⟨by decide, C5_priority_matches_catalog [⟨"PROMISSORY NOTE", 3, "primary"⟩] _ (by decide)⟩

/-- C8: the classifier is a total function in this embedding (it is a
computable `def`), and on the empty fragment sequence it returns the empty
sequence rather than an error. -/
theorem C8_empty_input_empty_output : analyze_mortgage_sections [] = [] := rfl

/-- C9: on the single fragment `{text := "PROMISSORY NOTE", page := 3,
method := "primary"}` the classifier returns exactly one record: label
"Promissory Note", page 3, confidence "high", matched pattern
"PROMISSORY NOTE", priority 10. -/
theorem C9_scenario_promissory_note :
    analyze_mortgage_sections [⟨"PROMISSORY NOTE", 3, "primary"⟩] =
      [⟨"Promissory Note", 3, "high", "PROMISSORY NOTE", 10, "PROMISSORY NOTE"⟩] := by
  decide

/-! ### Uppercasing preserves word boundaries -/

theorem toUpper_isWhitespace (c : Char) :
    (Char.toUpper c).isWhitespace = c.isWhitespace := by
  simp only [Char.toUpper]
  split
  case isTrue h =>
    have h1 : 97 ≤ c.toNat := h.1
    have h2 : c.toNat ≤ 122 := h.2
    have hne : ∀ (d : Char), d.toNat < 97 → c ≠ d := by
      intro d hd hc
      rw [hc] at h1
      omega
    have hw : c.isWhitespace = false := by
      unfold Char.isWhitespace
      rw [decide_eq_false (hne ' ' (by decide)),
          decide_eq_false (hne '\t' (by decide)),
          decide_eq_false (hne '\r' (by decide)),
          decide_eq_false (hne '\n' (by decide))]
      simp
    rw [hw]
    have h3 : 97 ≤ c.toNat ∧ c.toNat ≤ 122 := ⟨h1, h2⟩
    generalize c.toNat = n at h3
    obtain ⟨h4, h5⟩ := h3
    interval_cases n <;> decide
  case isFalse h => rfl

theorem countWords_map_toUpper : ∀ (l : List Char) (b : Bool),
    countWords (l.map Char.toUpper) b = countWords l b := by
  intro l
  induction l with
  | nil => intro b; rfl
  | cons c cs ih =>
    intro b
    simp only [List.map_cons, countWords, toUpper_isWhitespace]
    by_cases hc : c.isWhitespace = true
    · simp [hc, ih]
    · simp only [Bool.not_eq_true] at hc
      simp [hc, ih]

theorem wordCount_upper (s : String) : wordCount (upper s) = wordCount s :=
  countWords_map_toUpper s.data false

/-- C3: for a pattern of a rule contained in the uppercased fragment text,
the computed confidence is "high" exactly when the trimmed uppercased text
equals the pattern, or the fragment's text has at most 10
whitespace-separated words, or more than one of the rule's patterns occur
in the uppercased text; otherwise it is "medium", and no output record
ever carries confidence "low". -/
theorem C3_confidence_tiers :
    (∀ (item : Fragment) (rule : Rule) (p : String),
       p ∈ rule.patterns → strContains (upper item.text) p = true →
       ((computeConfidence (upper item.text) p rule.patterns = "high" ↔
          (pyStrip (upper item.text) = p ∨ wordCount item.text ≤ 10 ∨
           1 < (rule.patterns.filter (fun q => strContains (upper item.text) q)).length)) ∧
        (computeConfidence (upper item.text) p rule.patterns = "high" ∨
         computeConfidence (upper item.text) p rule.patterns = "medium"))) ∧
    (∀ (l : List Fragment) (e : Section),
       e ∈ analyze_mortgage_sections l → e.confidence ≠ "low") := by
  constructor
  · intro item rule p _ hcont
    refine ⟨?_, computeConfidence_cases _ _ _⟩
    unfold computeConfidence
    rw [← wordCount_upper item.text]
    by_cases h1 : pyStrip (upper item.text) = p
    · simp [h1]
    · rw [if_neg h1]
      by_cases h2 : wordCount (upper item.text) ≤ 10
      · simp [hcont, h2]
      · have : (strContains (upper item.text) p && decide (wordCount (upper item.text) ≤ 10))
            = false := by simp [h2]
        rw [this, if_neg (by simp)]
        by_cases h3 : 1 <
            (rule.patterns.filter (fun q => strContains (upper item.text) q)).length
        · simp [h3, h1, h2]
        · simp [h3, h1, h2]
  · intro l e he
    have hmem : e ∈ foundSections section_rules l :=
      (List.perm_insertionSort sectionLE (foundSections section_rules l)).subset he
    rcases (goodEntries_foundSections section_rules l e hmem).1 with h | h <;> rw [h] <;> decide

/-- C3 witness: the "Mortgage" rule matched by the pattern "DEED OF TRUST"
inside an eleven-word fragment gets confidence "medium". -/
theorem C3_confidence_tiers_witness :
    ("DEED OF TRUST" ∈ (Rule.mk ["MORTGAGE", "DEED OF TRUST", "SECURITY INSTRUMENT"]
        "Mortgage" 10).patterns ∧
     strContains (upper "This deed of trust secures repayment of the note described herein ok")
       "DEED OF TRUST" = true) ∧
    (computeConfidence
        (upper "This deed of trust secures repayment of the note described herein ok")
        "DEED OF TRUST"
        (Rule.mk ["MORTGAGE", "DEED OF TRUST", "SECURITY INSTRUMENT"] "Mortgage" 10).patterns
        = "high" ↔
      (pyStrip (upper "This deed of trust secures repayment of the note described herein ok")
          = "DEED OF TRUST" ∨
       wordCount (Fragment.mk
          "This deed of trust secures repayment of the note described herein ok"
          1 "primary").text ≤ 10 ∨
       1 < ((Rule.mk ["MORTGAGE", "DEED OF TRUST", "SECURITY INSTRUMENT"]
          "Mortgage" 10).patterns.filter (fun q => strContains
            (upper "This deed of trust secures repayment of the note described herein ok")
            q)).length)) :=
  ⟨⟨by decide, by decide⟩,
    (C3_confidence_tiers.1
      ⟨"This deed of trust secures repayment of the note described herein ok", 1, "primary"⟩
      (Rule.mk ["MORTGAGE", "DEED OF TRUST", "SECURITY INSTRUMENT"] "Mortgage" 10)
      "DEED OF TRUST" (by decide) (by decide)).1⟩

/-- C2: an existing entry for a rule's label is replaced exactly when the
new confidence tier strictly outranks the stored one, or the tiers are
equal and the rule's priority is at least the stored priority; as a
consequence, of two fragments matching the same rule with equal
confidence, the one processed last determines the recorded page, snippet
and pattern. -/
theorem C2_upsert_replacement :
    (∀ (item : Fragment) (fs : List Section) (rule : Rule) (pattern : String)
       (existing : Section),
       firstMatch (upper item.text) rule.patterns = some pattern →
       lookupSec fs rule.label = some existing →
       lookupSec (applyRule item fs rule) rule.label =
         some (if confidence_rank existing.confidence <
                 confidence_rank (computeConfidence (upper item.text) pattern rule.patterns) ∨
               (computeConfidence (upper item.text) pattern rule.patterns =
                  existing.confidence ∧ existing.priority ≤ rule.priority)
           then updateSection item
               (computeConfidence (upper item.text) pattern rule.patterns) pattern existing
           else existing)) ∧
    (∀ (a b : Fragment) (fs : List Section) (rule : Rule) (pa pb : String),
       firstMatch (upper a.text) rule.patterns = some pa →
       firstMatch (upper b.text) rule.patterns = some pb →
       computeConfidence (upper b.text) pb rule.patterns =
         computeConfidence (upper a.text) pa rule.patterns →
       lookupSec fs rule.label = none →
       lookupSec (applyRule b (applyRule a fs rule) rule) rule.label =
         some (newSection rule b (computeConfidence (upper b.text) pb rule.patterns) pb)) := by
  have hstep : ∀ (item : Fragment) (fs : List Section) (rule : Rule) (pattern : String)
      (existing : Section),
      firstMatch (upper item.text) rule.patterns = some pattern →
      lookupSec fs rule.label = some existing →
      lookupSec (applyRule item fs rule) rule.label =
        some (if confidence_rank existing.confidence <
                confidence_rank (computeConfidence (upper item.text) pattern rule.patterns) ∨
              (computeConfidence (upper item.text) pattern rule.patterns =
                 existing.confidence ∧ existing.priority ≤ rule.priority)
          then updateSection item
              (computeConfidence (upper item.text) pattern rule.patterns) pattern existing
          else existing) := by
    intro item fs rule pattern existing hm hl
    rw [lookupSec_applyRule, if_pos rfl]
    unfold ruleStep
    rw [hm, hl]
    by_cases hc : confidence_rank existing.confidence <
        confidence_rank (computeConfidence (upper item.text) pattern rule.patterns) ∨
        (computeConfidence (upper item.text) pattern rule.patterns = existing.confidence ∧
          existing.priority ≤ rule.priority)
    · have hb : betterMatch (computeConfidence (upper item.text) pattern rule.patterns)
          rule.priority existing = true := by
        unfold betterMatch
        rcases hc with hc | ⟨hc1, hc2⟩
        · simp [hc]
        · simp [hc1, hc2]
      simp [hb, hc]
    · have hb : betterMatch (computeConfidence (upper item.text) pattern rule.patterns)
          rule.priority existing = false := by
        unfold betterMatch
        push_neg at hc
        by_cases he : computeConfidence (upper item.text) pattern rule.patterns =
            existing.confidence
        · simp [decide_eq_false (Nat.not_lt.mpr hc.1), he,
            decide_eq_false (Nat.not_le.mpr (hc.2 he))]
        · simp [decide_eq_false (Nat.not_lt.mpr hc.1), he]
      simp [hb, hc]
  refine ⟨hstep, ?_⟩
  intro a b fs rule pa pb hma hmb hcc hl
  have h1 : lookupSec (applyRule a fs rule) rule.label =
      some (newSection rule a (computeConfidence (upper a.text) pa rule.patterns) pa) := by
    rw [lookupSec_applyRule, if_pos rfl]
    unfold ruleStep
    rw [hma, hl]
  have h2 := hstep b (applyRule a fs rule) rule pb
    (newSection rule a (computeConfidence (upper a.text) pa rule.patterns) pa) hmb h1
  rw [h2]
  have hcond : confidence_rank (newSection rule a
        (computeConfidence (upper a.text) pa rule.patterns) pa).confidence <
      confidence_rank (computeConfidence (upper b.text) pb rule.patterns) ∨
      (computeConfidence (upper b.text) pb rule.patterns =
        (newSection rule a (computeConfidence (upper a.text) pa rule.patterns) pa).confidence ∧
       (newSection rule a (computeConfidence (upper a.text) pa rule.patterns)
          pa).priority ≤ rule.priority) := by
    refine Or.inr ⟨?_, ?_⟩
    · rw [hcc]; rfl
    · exact le_refl rule.priority
  rw [if_pos hcond]
  rfl

/-- C2 witness: two same-rule, equal-confidence fragments; the second one
overwrites the record of the first. -/
theorem C2_upsert_replacement_witness :
    (firstMatch (upper "AFFIDAVIT OF TITLE") (Rule.mk ["AFFIDAVIT", "SWORN STATEMENT"]
        "Affidavit" 5).patterns = some "AFFIDAVIT" ∧
     firstMatch (upper "SWORN STATEMENT HERE") (Rule.mk ["AFFIDAVIT", "SWORN STATEMENT"]
        "Affidavit" 5).patterns = some "SWORN STATEMENT" ∧
     computeConfidence (upper "SWORN STATEMENT HERE") "SWORN STATEMENT"
        (Rule.mk ["AFFIDAVIT", "SWORN STATEMENT"] "Affidavit" 5).patterns =
       computeConfidence (upper "AFFIDAVIT OF TITLE") "AFFIDAVIT"
        (Rule.mk ["AFFIDAVIT", "SWORN STATEMENT"] "Affidavit" 5).patterns ∧
     lookupSec [] (Rule.mk ["AFFIDAVIT", "SWORN STATEMENT"] "Affidavit" 5).label = none) ∧
    lookupSec (applyRule ⟨"SWORN STATEMENT HERE", 2, "primary"⟩
        (applyRule ⟨"AFFIDAVIT OF TITLE", 1, "primary"⟩ []
          (Rule.mk ["AFFIDAVIT", "SWORN STATEMENT"] "Affidavit" 5))
        (Rule.mk ["AFFIDAVIT", "SWORN STATEMENT"] "Affidavit" 5))
      (Rule.mk ["AFFIDAVIT", "SWORN STATEMENT"] "Affidavit" 5).label =
      some (newSection (Rule.mk ["AFFIDAVIT", "SWORN STATEMENT"] "Affidavit" 5)
        ⟨"SWORN STATEMENT HERE", 2, "primary"⟩
        (computeConfidence (upper "SWORN STATEMENT HERE") "SWORN STATEMENT"
          (Rule.mk ["AFFIDAVIT", "SWORN STATEMENT"] "Affidavit" 5).patterns)
        "SWORN STATEMENT") :=
  ⟨⟨by decide, by decide, by decide, by decide⟩,
    C2_upsert_replacement.2 ⟨"AFFIDAVIT OF TITLE", 1, "primary"⟩
      ⟨"SWORN STATEMENT HERE", 2, "primary"⟩ []
      (Rule.mk ["AFFIDAVIT", "SWORN STATEMENT"] "Affidavit" 5) "AFFIDAVIT" "SWORN STATEMENT"
      (by decide) (by decide) (by decide) (by decide)⟩

/-! ### Monotonicity of the upsert -/

theorem ruleStep_mono (item : Fragment) (rule : Rule) (e : Section) :
    ∃ e2, ruleStep item rule (some e) = some e2 ∧ e2.section_type = e.section_type ∧
      confidence_rank e.confidence ≤ confidence_rank e2.confidence := by
  unfold ruleStep
  cases hm : firstMatch (upper item.text) rule.patterns with
  | none => exact ⟨e, rfl, rfl, le_refl _⟩
  | some pattern =>
    by_cases hb : betterMatch (computeConfidence (upper item.text) pattern rule.patterns)
        rule.priority e
    · refine ⟨updateSection item
        (computeConfidence (upper item.text) pattern rule.patterns) pattern e,
        by simp [hb], rfl, ?_⟩
      unfold betterMatch at hb
      rcases Bool.or_eq_true_iff.mp hb with h | h
      · exact le_of_lt (of_decide_eq_true h)
      · have : computeConfidence (upper item.text) pattern rule.patterns = e.confidence :=
          beq_iff_eq.mp (Bool.and_eq_true_iff.mp h).1
        rw [updateSection, this]
    · exact ⟨e, by simp [hb], rfl, le_refl _⟩

theorem foldl_ruleStep_mono (item : Fragment) :
    ∀ (rulesf : List Rule) (e : Section),
      ∃ e2, rulesf.foldl (fun cur r => ruleStep item r cur) (some e) = some e2 ∧
        e2.section_type = e.section_type ∧
        confidence_rank e.confidence ≤ confidence_rank e2.confidence := by
  intro rulesf
  induction rulesf with
  | nil => intro e; exact ⟨e, rfl, rfl, le_refl _⟩
  | cons r rs ih =>
    intro e
    rcases ruleStep_mono item r e with ⟨e1, he1, ht1, hc1⟩
    rcases ih e1 with ⟨e2, he2, ht2, hc2⟩
    refine ⟨e2, ?_, ht2.trans ht1, le_trans hc1 hc2⟩
    simp only [List.foldl_cons, he1]
    exact he2

theorem lookup_processItem_mono (rules : List Rule) (fs : List Section) (item : Fragment)
    (lab : String) (e : Section) (h : lookupSec fs lab = some e) :
    ∃ e2, lookupSec (processItem rules fs item) lab = some e2 ∧
      e2.section_type = e.section_type ∧
      confidence_rank e.confidence ≤ confidence_rank e2.confidence := by
  rw [lookupSec_processItem, h]
  exact foldl_ruleStep_mono item (rules.filter (fun r => r.label == lab)) e

/-- C10: appending a fragment never removes a label from the output and
never lowers its confidence tier. -/
theorem C10_append_monotone (s : List Fragment) (f : Fragment) (e : Section)
    (he : e ∈ analyze_mortgage_sections s) :
    ∃ e2, e2 ∈ analyze_mortgage_sections (s ++ [f]) ∧
      e2.section_type = e.section_type ∧
      confidence_rank e.confidence ≤ confidence_rank e2.confidence := by
  have hmem : e ∈ foundSections section_rules s :=
    (List.perm_insertionSort sectionLE (foundSections section_rules s)).subset he
  have hnd : keysNodup (foundSections section_rules s) :=
    keysNodup_foundSections section_rules s
  have hlk : lookupSec (foundSections section_rules s) e.section_type = some e :=
    find?_key_eq_some Section.section_type (foundSections section_rules s) hnd e hmem
  have happ : foundSections section_rules (s ++ [f]) =
      processItem section_rules (foundSections section_rules s) f := by
    unfold foundSections
    rw [List.foldl_append]
    rfl
  rcases lookup_processItem_mono section_rules (foundSections section_rules s) f
    e.section_type e hlk with ⟨e2, he2, ht2, hc2⟩
  refine ⟨e2, ?_, ht2, hc2⟩
  have hm2 : e2 ∈ foundSections section_rules (s ++ [f]) := by
    rw [happ]
    exact lookupSec_mem he2
  exact (List.perm_insertionSort sectionLE (foundSections section_rules (s ++ [f]))).symm.subset hm2

/-- C10 witness: the Promissory Note record survives appending an
unrelated fragment with confidence at least "high". -/
theorem C10_append_monotone_witness :
    (⟨"Promissory Note", 3, "high", "PROMISSORY NOTE", 10, "PROMISSORY NOTE"⟩ : Section) ∈
      analyze_mortgage_sections [⟨"PROMISSORY NOTE", 3, "primary"⟩] ∧
    ∃ e2, e2 ∈ analyze_mortgage_sections
        ([⟨"PROMISSORY NOTE", 3, "primary"⟩] ++ [⟨"hello there", 4, "primary"⟩]) ∧
      e2.section_type = (⟨"Promissory Note", 3, "high", "PROMISSORY NOTE", 10,
        "PROMISSORY NOTE"⟩ : Section).section_type ∧
      confidence_rank (⟨"Promissory Note", 3, "high", "PROMISSORY NOTE", 10,
        "PROMISSORY NOTE"⟩ : Section).confidence ≤ confidence_rank e2.confidence :=
  ⟨by decide, C10_append_monotone [⟨"PROMISSORY NOTE", 3, "primary"⟩]
    ⟨"hello there", 4, "primary"⟩ _ (by decide)⟩

/-! ### Rule order does not matter -/

theorem eq_of_perm_of_subsingleton {α : Type u} {l1 l2 : List α}
    (hp : l1.Perm l2) (h : l1.length ≤ 1) : l1 = l2 := by
  cases l1 with
  | nil => exact hp.nil_eq
  | cons a t =>
    cases t with
    | nil => exact (List.perm_singleton.mp hp.symm).symm
    | cons b t2 => simp at h

theorem filter_label_len_le_one (rules : List Rule)
    (hnd : (rules.map Rule.label).Nodup) (lab : String) :
    (rules.filter (fun r => r.label == lab)).length ≤ 1 := by
  cases hf : rules.filter (fun r => r.label == lab) with
  | nil => simp
  | cons r t =>
    cases t with
    | nil => simp
    | cons r2 t2 =>
      exfalso
      have hsub : (rules.filter (fun r => r.label == lab)).Sublist rules :=
        List.filter_sublist rules
      have hnd2 : ((rules.filter (fun r => r.label == lab)).map Rule.label).Nodup :=
        List.Nodup.sublist (hsub.map Rule.label) hnd
      rw [hf] at hnd2
      have h1 : (r.label == lab) = true := by
        have : r ∈ rules.filter (fun r => r.label == lab) := by rw [hf]; simp
        exact (List.mem_filter.mp this).2
      have h2 : (r2.label == lab) = true := by
        have : r2 ∈ rules.filter (fun r => r.label == lab) := by rw [hf]; simp
        exact (List.mem_filter.mp this).2
      simp only [List.map_cons, List.nodup_cons] at hnd2
      apply hnd2.1
      rw [beq_iff_eq.mp h1, ← beq_iff_eq.mp h2]
      simp

theorem filter_label_eq_of_perm {rules1 rules2 : List Rule} (hp : rules1.Perm rules2)
    (hnd : (rules1.map Rule.label).Nodup) (lab : String) :
    rules1.filter (fun r => r.label == lab) = rules2.filter (fun r => r.label == lab) :=
  eq_of_perm_of_subsingleton (hp.filter (fun r => r.label == lab))
    (filter_label_len_le_one rules1 hnd lab)

theorem lookup_foldl_congr (rules1 rules2 : List Rule)
    (hfilter : ∀ lab, rules1.filter (fun r => r.label == lab) =
      rules2.filter (fun r => r.label == lab)) :
    ∀ (l : List Fragment) (fs1 fs2 : List Section),
      (∀ lab, lookupSec fs1 lab = lookupSec fs2 lab) →
      ∀ lab, lookupSec (l.foldl (processItem rules1) fs1) lab =
        lookupSec (l.foldl (processItem rules2) fs2) lab := by
  intro l
  induction l with
  | nil => intro fs1 fs2 h lab; exact h lab
  | cons item t ih =>
    intro fs1 fs2 h lab
    simp only [List.foldl_cons]
    refine ih (processItem rules1 fs1 item) (processItem rules2 fs2 item) ?_ lab
    intro lab2
    rw [lookupSec_processItem, lookupSec_processItem, hfilter lab2, h lab2]

/-- C6: permuting the static rule catalog does not change the classifier's
output on any input. -/
theorem C6_rule_order_irrelevant (rules : List Rule) (l : List Fragment)
    (hp : rules.Perm section_rules) :
    analyzeWith rules l = analyze_mortgage_sections l := by
  have hnd : (rules.map Rule.label).Nodup :=
    (hp.map Rule.label).nodup_iff.mpr section_rules_labels_nodup
  have hlk : ∀ lab, lookupSec (foundSections rules l) lab =
      lookupSec (foundSections section_rules l) lab :=
    lookup_foldl_congr rules section_rules
      (fun lab => filter_label_eq_of_perm hp hnd lab) l [] [] (fun _ => rfl)
  have hperm : (foundSections rules l).Perm (foundSections section_rules l) :=
    perm_of_lookup_eq Section.section_type _ _
      (keysNodup_foundSections rules l) (keysNodup_foundSections section_rules l) hlk
  exact insertionSort_congr_of_perm (keysNodup_foundSections rules l) hperm

/-- C6 witness: the reversed catalog classifies the Scenario 1 input
identically. -/
theorem C6_rule_order_irrelevant_witness :
    section_rules.reverse.Perm section_rules ∧
    analyzeWith section_rules.reverse [⟨"PROMISSORY NOTE", 3, "primary"⟩] =
      analyze_mortgage_sections [⟨"PROMISSORY NOTE", 3, "primary"⟩] :=
  ⟨section_rules.reverse_perm, C6_rule_order_irrelevant section_rules.reverse
    [⟨"PROMISSORY NOTE", 3, "primary"⟩] section_rules.reverse_perm⟩

/-! ### Same-page permutations of the fragment sequence -/

/-- Projection of an output record onto the fields that same-page
permutations preserve: label, page, confidence, priority (the snippet and
matched pattern are dropped). -/
def coreOf (e : Section) : String × Nat × String × Nat :=
  (e.section_type, e.page, e.confidence, e.priority)

/-- The unique catalog rule carrying a given label, if any. -/
def catalogRule (lab : String) : Option Rule :=
  section_rules.find? (fun r => r.label == lab)

theorem filter_key_eq_find {α : Type u} {β : Type v} [DecidableEq β] (key : α → β) :
    ∀ (l : List α), (l.map key).Nodup → ∀ (k : β),
      l.filter (fun x => key x == k) =
        (match l.find? (fun x => key x == k) with | none => [] | some a => [a]) := by
  intro l
  induction l with
  | nil => intro _ k; rfl
  | cons y t ih =>
    intro hnd k
    simp only [List.map_cons, List.nodup_cons] at hnd
    cases hy : (key y == k) with
    | true =>
      rw [List.filter_cons_of_pos (by simp [hy]), List.find?_cons_of_pos _ (by simp [hy])]
      have ht : t.filter (fun x => key x == k) = [] := by
        rw [List.filter_eq_nil_iff]
        intro a ha hak
        apply hnd.1
        have : key a = k := by simpa using hak
        have hyk : key y = k := by simpa using hy
        rw [hyk, ← this]
        exact List.mem_map_of_mem key ha
      rw [ht]
    | false =>
      rw [List.filter_cons_of_neg (by simp [hy]), List.find?_cons_of_neg _ (by simp [hy])]
      exact ih hnd.2 k

theorem lookupSec_processItem_catalog (item : Fragment) (fs : List Section) (lab : String) :
    lookupSec (processItem section_rules fs item) lab =
      (match catalogRule lab with
       | none => lookupSec fs lab
       | some r => ruleStep item r (lookupSec fs lab)) := by
  rw [lookupSec_processItem,
    filter_key_eq_find Rule.label section_rules section_rules_labels_nodup lab]
  cases hr : catalogRule lab with
  | none =>
    rw [show section_rules.find? (fun r => r.label == lab) = none from hr]
    rfl
  | some r =>
    rw [show section_rules.find? (fun r => r.label == lab) = some r from hr]
    rfl

theorem ruleStep_core_congr (item : Fragment) (rule : Rule) (c1 c2 : Option Section)
    (h : c1.map coreOf = c2.map coreOf) :
    (ruleStep item rule c1).map coreOf = (ruleStep item rule c2).map coreOf := by
  unfold ruleStep
  cases hm : firstMatch (upper item.text) rule.patterns with
  | none => exact h
  | some pattern =>
    cases c1 with
    | none =>
      cases c2 with
      | none => rfl
      | some e2 => exact Option.noConfusion h
    | some e1 =>
      cases c2 with
      | none => exact Option.noConfusion h
      | some e2 =>
        replace h : coreOf e1 = coreOf e2 := Option.some.inj h
        have hconf : e1.confidence = e2.confidence := by
          have := congrArg (fun t => t.2.2.1) h
          simpa [coreOf] using this
        have hprio : e1.priority = e2.priority := by
          have := congrArg (fun t => t.2.2.2) h
          simpa [coreOf] using this
        have htype : e1.section_type = e2.section_type := by
          have := congrArg (fun t => t.1) h
          simpa [coreOf] using this
        have hpage : e1.page = e2.page := by
          have := congrArg (fun t => t.2.1) h
          simpa [coreOf] using this
        have hbm : betterMatch (computeConfidence (upper item.text) pattern rule.patterns)
            rule.priority e1 =
            betterMatch (computeConfidence (upper item.text) pattern rule.patterns)
            rule.priority e2 := by
          unfold betterMatch
          rw [hconf, hprio]
        by_cases hb : betterMatch (computeConfidence (upper item.text) pattern rule.patterns)
            rule.priority e1
        · rw [hb] at hbm
          simp only [hb, hbm.symm, if_true]
          simp [coreOf, updateSection, htype, hprio]
        · rw [eq_comm] at hbm
          rw [Bool.not_eq_true] at hb
          rw [hb] at hbm
          simp only [hb, hbm, Bool.false_eq_true, if_false]
          simp [coreOf, htype, hprio, hconf, hpage]

theorem ruleStep_swap (a b : Fragment) (rule : Rule) (cur : Option Section)
    (hpage : a.page = b.page)
    (hcur : ∀ e, cur = some e → (e.confidence = "high" ∨ e.confidence = "medium") ∧
        e.priority = rule.priority) :
    (ruleStep b rule (ruleStep a rule cur)).map coreOf =
    (ruleStep a rule (ruleStep b rule cur)).map coreOf := by
  cases hma : firstMatch (upper a.text) rule.patterns with
  | none =>
    cases hmb : firstMatch (upper b.text) rule.patterns with
    | none => simp [ruleStep, hma, hmb]
    | some pb => simp [ruleStep, hma, hmb]
  | some pa =>
    cases hmb : firstMatch (upper b.text) rule.patterns with
    | none => simp [ruleStep, hma, hmb]
    | some pb =>
      cases cur with
      | none =>
        rcases computeConfidence_cases (upper a.text) pa rule.patterns with hca | hca <;>
          rcases computeConfidence_cases (upper b.text) pb rule.patterns with hcb | hcb <;>
          simp [ruleStep, hma, hmb, hca, hcb, betterMatch, confidence_rank,
            newSection, updateSection, coreOf, hpage]
      | some e =>
        obtain ⟨hconf, hprio⟩ := hcur e rfl
        rcases hconf with he | he <;>
          rcases computeConfidence_cases (upper a.text) pa rule.patterns with hca | hca <;>
          rcases computeConfidence_cases (upper b.text) pb rule.patterns with hcb | hcb <;>
          simp [ruleStep, hma, hmb, hca, hcb, he, hprio, betterMatch, confidence_rank,
            newSection, updateSection, coreOf, hpage]

theorem good_lookup (fs : List Section) (hg : GoodEntries section_rules fs) (lab : String)
    (r : Rule) (hr : catalogRule lab = some r) (e : Section)
    (he : lookupSec fs lab = some e) :
    (e.confidence = "high" ∨ e.confidence = "medium") ∧ e.priority = r.priority := by
  have hmem : e ∈ fs := lookupSec_mem he
  have htype : e.section_type = lab := lookupSec_section_type he
  rcases hg e hmem with ⟨hconf, r2, hr2, hlab, hpr⟩
  refine ⟨hconf, ?_⟩
  have hfind := find?_key_eq_some Rule.label section_rules section_rules_labels_nodup r2 hr2
  rw [hlab, htype] at hfind
  have : some r = some r2 := by rw [← hr]; exact hfind
  rw [← hpr, Option.some.inj this]

theorem processItem_swap (a b : Fragment) (fs : List Section) (hpage : a.page = b.page)
    (hg : GoodEntries section_rules fs) (lab : String) :
    (lookupSec (processItem section_rules (processItem section_rules fs a) b) lab).map coreOf =
    (lookupSec (processItem section_rules (processItem section_rules fs b) a) lab).map coreOf := by
  rw [lookupSec_processItem_catalog, lookupSec_processItem_catalog,
      lookupSec_processItem_catalog, lookupSec_processItem_catalog]
  cases hr : catalogRule lab with
  | none => rfl
  | some r =>
    exact ruleStep_swap a b r (lookupSec fs lab) hpage
      (fun e he => good_lookup fs hg lab r hr e he)

theorem foldl_processItem_core_congr :
    ∀ (q : List Fragment) (fs1 fs2 : List Section),
      (∀ lab, (lookupSec fs1 lab).map coreOf = (lookupSec fs2 lab).map coreOf) →
      ∀ lab, (lookupSec (q.foldl (processItem section_rules) fs1) lab).map coreOf =
             (lookupSec (q.foldl (processItem section_rules) fs2) lab).map coreOf := by
  intro q
  induction q with
  | nil => intro fs1 fs2 h lab; exact h lab
  | cons item t ih =>
    intro fs1 fs2 h lab
    simp only [List.foldl_cons]
    refine ih _ _ ?_ lab
    intro lab2
    rw [lookupSec_processItem_catalog, lookupSec_processItem_catalog]
    cases hr : catalogRule lab2 with
    | none => exact h lab2
    | some r => exact ruleStep_core_congr item r _ _ (h lab2)

/-- Permutations of the fragment sequence generated by adjacent
transpositions of fragments that share a page number. -/
inductive PagePerm : List Fragment → List Fragment → Prop
  | refl (l : List Fragment) : PagePerm l l
  | swap (p q : List Fragment) (a b : Fragment) (h : a.page = b.page) :
      PagePerm (p ++ a :: b :: q) (p ++ b :: a :: q)
  | trans {l1 l2 l3 : List Fragment} : PagePerm l1 l2 → PagePerm l2 l3 → PagePerm l1 l3

theorem foundSections_core_congr {l1 l2 : List Fragment} (hp : PagePerm l1 l2) :
    ∀ lab, (lookupSec (foundSections section_rules l1) lab).map coreOf =
           (lookupSec (foundSections section_rules l2) lab).map coreOf := by
  induction hp with
  | refl l => intro lab; rfl
  | swap p q a b h =>
    intro lab
    unfold foundSections
    rw [List.foldl_append, List.foldl_append]
    simp only [List.foldl_cons]
    refine foldl_processItem_core_congr q _ _ ?_ lab
    intro lab2
    exact processItem_swap a b (List.foldl (processItem section_rules) [] p) h
      (goodEntries_foundSections section_rules p) lab2
  | trans h12 h23 ih12 ih23 =>
    intro lab
    exact (ih12 lab).trans (ih23 lab)

/-- The sort-key order transported to projected records. -/
def coreLE (t u : String × Nat × String × Nat) : Prop :=
  u.2.2.2 < t.2.2.2 ∨ (t.2.2.2 = u.2.2.2 ∧
    (t.2.1 < u.2.1 ∨ (t.2.1 = u.2.1 ∧ t.1 ≤ u.1)))

theorem coreLE_of_sectionLE {x y : Section} (h : sectionLE x y) :
    coreLE (coreOf x) (coreOf y) := h

theorem coreLE_antisymm_keys {t u : String × Nat × String × Nat}
    (h1 : coreLE t u) (h2 : coreLE u t) : t.1 = u.1 := by
  unfold coreLE at h1 h2
  rcases h1 with h1 | ⟨h1, h3⟩
  · rcases h2 with h2 | ⟨h2, h4⟩
    · omega
    · omega
  · rcases h2 with h2 | ⟨h2, h4⟩
    · omega
    · rcases h3 with h3 | ⟨h3, h5⟩
      · rcases h4 with h4 | ⟨h4, h6⟩
        · omega
        · omega
      · rcases h4 with h4 | ⟨h4, h6⟩
        · omega
        · exact le_antisymm h5 h6

theorem map_coreOf_keysNodup {fs : List Section} (h : keysNodup fs) :
    ((fs.map coreOf).map Prod.fst).Nodup := by
  rw [List.map_map]
  exact h

theorem find?_map_coreOf (fs : List Section) (k : String) :
    (fs.map coreOf).find? (fun t => t.1 == k) =
      (lookupSec fs k).map coreOf := by
  unfold lookupSec
  rw [List.find?_map]
  rfl

/-- C7 (amended): a same-page permutation of the fragments preserves the
output up to the `text_snippet` and `pattern_matched` fields: the
projections onto (label, page, confidence, priority) coincide. -/
theorem C7_same_page_perm_amended (l1 l2 : List Fragment) (hp : PagePerm l1 l2) :
    (analyze_mortgage_sections l1).map coreOf = (analyze_mortgage_sections l2).map coreOf := by
  have hnd1 : keysNodup (foundSections section_rules l1) :=
    keysNodup_foundSections section_rules l1
  have hnd2 : keysNodup (foundSections section_rules l2) :=
    keysNodup_foundSections section_rules l2
  have hfind : ∀ k, ((foundSections section_rules l1).map coreOf).find? (fun t => t.1 == k) =
      ((foundSections section_rules l2).map coreOf).find? (fun t => t.1 == k) := by
    intro k
    rw [find?_map_coreOf, find?_map_coreOf, foundSections_core_congr hp k]
  have hMperm : ((foundSections section_rules l1).map coreOf).Perm
      ((foundSections section_rules l2).map coreOf) :=
    perm_of_lookup_eq Prod.fst _ _ (map_coreOf_keysNodup hnd1) (map_coreOf_keysNodup hnd2) hfind
  have hS1perm : ((analyze_mortgage_sections l1).map coreOf).Perm
      ((foundSections section_rules l1).map coreOf) :=
    (List.perm_insertionSort sectionLE (foundSections section_rules l1)).map coreOf
  have hS2perm : ((analyze_mortgage_sections l2).map coreOf).Perm
      ((foundSections section_rules l2).map coreOf) :=
    (List.perm_insertionSort sectionLE (foundSections section_rules l2)).map coreOf
  have hs1 : ((analyze_mortgage_sections l1).map coreOf).Pairwise coreLE :=
    List.Pairwise.map coreOf (fun x y h => coreLE_of_sectionLE h)
      (List.sorted_insertionSort sectionLE (foundSections section_rules l1))
  have hs2 : ((analyze_mortgage_sections l2).map coreOf).Pairwise coreLE :=
    List.Pairwise.map coreOf (fun x y h => coreLE_of_sectionLE h)
      (List.sorted_insertionSort sectionLE (foundSections section_rules l2))
  have hknd : (((analyze_mortgage_sections l1).map coreOf).map Prod.fst).Nodup :=
    (hS1perm.map Prod.fst).nodup_iff.mpr (map_coreOf_keysNodup hnd1)
  exact eq_of_perm_of_sorted_key Prod.fst
    (fun t u h1 h2 => coreLE_antisymm_keys h1 h2) _ _
    (hS1perm.trans (hMperm.trans hS2perm.symm)) hs1 hs2 hknd

/-- C7 counterexample: two same-page fragments that both match the
"Affidavit" rule with equal confidence; swapping them changes the output
record's snippet and matched pattern, so the claim as stated fails. -/
theorem C7_counterexample :
    analyze_mortgage_sections [⟨"AFFIDAVIT OF TITLE", 1, "primary"⟩,
        ⟨"SWORN STATEMENT HERE", 1, "primary"⟩] ≠
    analyze_mortgage_sections [⟨"SWORN STATEMENT HERE", 1, "primary"⟩,
        ⟨"AFFIDAVIT OF TITLE", 1, "primary"⟩] := by decide

/-- C7 witness: the amended claim applied to the swapped pair of the
counterexample. -/
theorem C7_same_page_perm_amended_witness :
    PagePerm [⟨"AFFIDAVIT OF TITLE", 1, "primary"⟩, ⟨"SWORN STATEMENT HERE", 1, "primary"⟩]
      [⟨"SWORN STATEMENT HERE", 1, "primary"⟩, ⟨"AFFIDAVIT OF TITLE", 1, "primary"⟩] ∧
    (analyze_mortgage_sections [⟨"AFFIDAVIT OF TITLE", 1, "primary"⟩,
        ⟨"SWORN STATEMENT HERE", 1, "primary"⟩]).map coreOf =
      (analyze_mortgage_sections [⟨"SWORN STATEMENT HERE", 1, "primary"⟩,
        ⟨"AFFIDAVIT OF TITLE", 1, "primary"⟩]).map coreOf :=
  ⟨PagePerm.swap [] [] ⟨"AFFIDAVIT OF TITLE", 1, "primary"⟩
      ⟨"SWORN STATEMENT HERE", 1, "primary"⟩ rfl,
    C7_same_page_perm_amended _ _
      (PagePerm.swap [] [] ⟨"AFFIDAVIT OF TITLE", 1, "primary"⟩
        ⟨"SWORN STATEMENT HERE", 1, "primary"⟩ rfl)⟩

end MortgageAnalyzer
